import Mathlib

/-!
Verification development for the single-instrument limit-order-book pricer
(`pricer.py`).  The Python program keeps, per side of the book, a dictionary
`price_map` from price (integer cents) to aggregate size, a dictionary
`order_map` from order id to a `(price, size)` record, and a running
`total_size`; it applies add/reduce events and, after each event that changes
a side's total, recomputes the cost to fill a fixed target quantity.

Python dictionaries are modelled as association lists (`List (κ × ν)`) whose
operations mirror dict semantics: assignment replaces the value of an existing
key in place and appends a fresh key at the end, deletion removes the key,
lookup returns the first binding.  Machine integers are modelled as `Int`
(Python ints are unbounded, so no overflow wrapping is needed).  Statements
that can raise an uncaught exception (`KeyError` on a missing dict key,
`IndexError` on list indexing past the end) are modelled with `Option`:
`none` means the program aborts at that point.
-/

set_option maxHeartbeats 1000000
set_option linter.unusedSectionVars false

namespace Pricer

/-! ### Association lists modelling Python dicts -/

section AList

variable {κ : Type} {ν : Type} [DecidableEq κ]

/-- First binding of key `k`, like a Python dict lookup that succeeds. -/
def alookup (k : κ) : List (κ × ν) → Option ν
  | [] => none
  | (k', v') :: rest => if k' = k then some v' else alookup k rest

/-- Dict assignment `d[k] = v`: replace in place if the key exists,
append at the end otherwise (Python dicts preserve insertion order). -/
def aset (k : κ) (v : ν) : List (κ × ν) → List (κ × ν)
  | [] => [(k, v)]
  | (k', v') :: rest => if k' = k then (k, v) :: rest else (k', v') :: aset k v rest

/-- Dict deletion `del d[k]` (removes every binding of `k`; the maps built by
the program never hold a duplicate key, so this agrees with removing one). -/
def aerase (k : κ) : List (κ × ν) → List (κ × ν)
  | [] => []
  | (k', v') :: rest => if k' = k then aerase k rest else (k', v') :: aerase k rest

/-- The key list of the map, in insertion order (Python `d.keys()`). -/
def keysOf (m : List (κ × ν)) : List κ := m.map Prod.fst

/-- Python dicts cannot hold a key twice; maps built from the empty dict by
`aset`/`aerase` always satisfy this. -/
def NodupKeys (m : List (κ × ν)) : Prop := (keysOf m).Nodup

/-- Sum of `f` over all stored values. -/
def asumBy (f : ν → Int) (m : List (κ × ν)) : Int := (m.map (fun e => f e.2)).sum

end AList

/-- Sum of the values of an `Int`-valued map (e.g. all level sizes). -/
def asum (m : List (Int × Int)) : Int := asumBy id m

/-! ### The `Order` value

`parse_message` writes the parsed fields into the same `Order` object on
every line.  In Python, a reduce line sets `price`/`side` to `None`; `None`
is observable only through `self.side == order.side` in `_add_order`, where
it compares unequal to the book sides `"B"`/`"S"`.  The model encodes that
`None` as `side = ""` (also the initial value `str()` produces) and leaves
`price` at `0`: an order whose `side` is `""` never reaches the code that
reads `price`, so the stand-in is unobservable. -/

structure Order where
  timestamp : Int
  type : String
  id : String
  size : Int
  price : Int
  side : String
  deriving DecidableEq, Repr

/-- `Order.__init__`: `int()` is `0` and `str()` is `""`. -/
def initOrder : Order := ⟨0, "", "", 0, 0, ""⟩

/-! ### One side of the book -/

structure OrderEntry where
  price : Int
  size : Int
  deriving DecidableEq, Repr

structure OrderBook where
  side : String
  total_size : Int
  price_map : List (Int × Int)
  order_map : List (String × OrderEntry)
  deriving DecidableEq, Repr

/-- `OrderBook.__init__(side_string)`. -/
def emptyBook (side_string : String) : OrderBook :=
  ⟨side_string, 0, [], []⟩

/-- `OrderBook._add_order`.  Total: the Python body never raises. -/
def OrderBook.add_order (b : OrderBook) (o : Order) : OrderBook :=
  if o.side = b.side then
    { b with
      order_map := aset o.id ⟨o.price, o.size⟩ b.order_map
      price_map :=
        match alookup o.price b.price_map with
        | some v => aset o.price (v + o.size) b.price_map
        | none => aset o.price o.size b.price_map
      total_size := b.total_size + o.size }
  else b

/-- `OrderBook.order_id_exists`. -/
def OrderBook.order_id_exists (b : OrderBook) (o : Order) : Bool :=
  (alookup o.id b.order_map).isSome

/-- `OrderBook._reduce_order`.  The Python code applies the reduce size in
full (no clamping), then deletes the order entry and the price level exactly
when the updated value is `0`.  `self.price_map[price] -= reduce_size` raises
an uncaught `KeyError` when the price is absent, modelled by `none`.  The
`some cur` branch of the match is the `order_id_exists` check together with
the subsequent `order_map[order.id]` lookups. -/
def OrderBook.reduce_order (b : OrderBook) (o : Order) : Option OrderBook :=
  match alookup o.id b.order_map with
  | none => some b
  | some cur =>
    match alookup cur.price b.price_map with
    | none => none
    | some lv =>
      let reduce_size := o.size
      let b' : OrderBook :=
        { b with
          order_map := aset o.id ⟨cur.price, cur.size - reduce_size⟩ b.order_map
          price_map := aset cur.price (lv - reduce_size) b.price_map
          total_size := b.total_size - reduce_size }
      let b'' : OrderBook :=
        if cur.size - reduce_size = 0 then
          { b' with order_map := aerase o.id b'.order_map }
        else b'
      some (if lv - reduce_size = 0 then
              { b'' with price_map := aerase cur.price b''.price_map }
            else b'')

/-- `OrderBook.process_order`. -/
def OrderBook.process_order (b : OrderBook) (o : Order) : Option OrderBook :=
  if o.type = "A" then some (b.add_order o)
  else if o.type = "R" then b.reduce_order o
  else some b

/-! ### Cost of filling the target (`OrderBook.calc_cost`) -/

/-- The price keys in the order `calc_cost` walks them: descending for the
buy (bid) book, ascending for the sell (ask) book, unsorted otherwise.
(The Python 2 `keys()` order before sorting is arbitrary; for the `"B"`/`"S"`
books it is irrelevant because the list is sorted, and the claims never
evaluate `calc_cost` on a book of any other side with two or more levels.) -/
def sortedPrices (b : OrderBook) : List Int :=
  if b.side = "B" then List.insertionSort (fun x y => x ≥ y) (keysOf b.price_map)
  else if b.side = "S" then List.insertionSort (fun x y => x ≤ y) (keysOf b.price_map)
  else keysOf b.price_map

/-- The `while remaining > 0` loop of `calc_cost`: `prices` is the tail of
the sorted key list from the current index on, so indexing past the end of
the list (`IndexError`, uncaught) is reaching `[]` with `remaining > 0`. -/
def costLoop (pm : List (Int × Int)) : List Int → Int → Int → Option Int
  | [], remaining, cost => if remaining > 0 then none else some cost
  | p :: rest, remaining, cost =>
    if remaining > 0 then
      match alookup p pm with
      | none => none
      | some s =>
        if remaining ≥ s then costLoop pm rest (remaining - s) (cost + p * s)
        else some (cost + p * remaining)
    else some cost

/-- `OrderBook.calc_cost`.  When the side lacks the target size the Python
code returns the plain integer `0`. -/
def OrderBook.calc_cost (b : OrderBook) (target : Int) : Option Int :=
  if b.total_size ≥ target then costLoop b.price_map (sortedPrices b) target 0
  else some 0

/-! ### Line parsing (`Order.parse_message`)

`raw_line.split(" ")` splits on every single space, keeping empty tokens.
The splitter below works on the character list so that every evaluation
reduces inside the kernel. -/

/-- Python `str.split(sep)` for a one-character separator. -/
def splitOnChar (c : Char) : List Char → List (List Char)
  | [] => [[]]
  | a :: rest =>
    if a = c then [] :: splitOnChar c rest
    else
      match splitOnChar c rest with
      | [] => [[a]]
      | t :: ts => (a :: t) :: ts

def tokenize (line : String) : List String :=
  (splitOnChar ' ' line.toList).map (fun cs => String.mk cs)

/-- Value of a non-empty all-digit character list. -/
def digitsVal : List Char → Option Nat
  | [] => some 0
  | c :: rest =>
    if c.isDigit then
      match digitsVal rest with
      | some n => some ((c.toNat - 48) * 10 ^ rest.length + n)
      | none => none
    else none

/-- Python `int(token)` (`ValueError` is `none`).  Python also tolerates
surrounding whitespace and a leading `+`; no input evaluated in this
development uses those forms. -/
def toPyInt (s : String) : Option Int :=
  match s.toList with
  | [] => none
  | '-' :: rest =>
    if rest = [] then none
    else (digitsVal rest).map (fun n => -(n : Int))
  | cs => (digitsVal cs).map (fun n => (n : Int))

/-- `int(float(token)*100.0 + 0.5)`, the conversion of a decimal price to
integer cents, modelled in exact arithmetic for the forms the problem's
input format uses: a non-negative integer part with exactly two decimals
(`D.CC`, giving `100*D + CC`) or no decimal point (`D`, giving `100*D`).
For these forms the float computation is exact to well under the rounding
slack of `+ 0.5`, so the exact value and the Python value coincide; any
other token is a `ValueError` (`none`), as in Python for non-numeric text. -/
def parsePriceCents (s : String) : Option Int :=
  match (splitOnChar '.' s.toList).map (fun cs => String.mk cs) with
  | [a] => (toPyNatTok a).map (fun n => (n : Int) * 100)
  | [a, f] =>
    match toPyNatTok a, toPyNatTok f with
    | some d, some c => if f.length = 2 then some ((d : Int) * 100 + (c : Int)) else none
    | _, _ => none
  | _ => none
where
  toPyNatTok (t : String) : Option Nat :=
    match t.toList with
    | [] => none
    | cs => digitsVal cs

/-- Outcome of `parse_message`: `ok`, a `ValueError` (raised by `int()` or
`float()`, caught by the caller), or an `IndexError` (raised by indexing
`message`, NOT caught by the caller, so the program dies). -/
inductive ParseOutcome where
  | ok
  | valueError
  | indexError
  deriving DecidableEq, Repr

/-- `Order.parse_message`.  The method assigns the fields of the shared
`Order` object one at a time, so a line that fails mid-way leaves the
earlier fields updated and the later fields stale — the returned `Order`
reflects exactly the assignments executed before the exception. -/
def Order.parse_message (o : Order) (raw_line : String) : Order × ParseOutcome :=
  let message := tokenize raw_line
  match toPyInt (message.getD 0 "") with
  | none => (o, ParseOutcome.valueError)
  | some ts =>
    let o := { o with timestamp := ts }
    match message.get? 1 with
    | none => (o, ParseOutcome.indexError)
    | some ty =>
      let o := { o with type := ty }
      match message.get? 2 with
      | none => (o, ParseOutcome.indexError)
      | some oid =>
        let o := { o with id := oid }
        if message.length = 4 then
          -- reduce order: size, then price = None, side = None (encoded 0, "")
          match toPyInt (message.getD 3 "") with
          | none => (o, ParseOutcome.valueError)
          | some sz => ({ o with size := sz, price := 0, side := "" }, ParseOutcome.ok)
        else
          -- add order: message[5] is read (and may raise IndexError) first
          match message.get? 5 with
          | none => (o, ParseOutcome.indexError)
          | some szTok =>
            match toPyInt szTok with
            | none => (o, ParseOutcome.valueError)
            | some sz =>
              let o := { o with size := sz }
              match parsePriceCents (message.getD 4 "") with
              | none => (o, ParseOutcome.valueError)
              | some pc => ({ o with price := pc, side := message.getD 3 "" }, ParseOutcome.ok)

/-! ### Output formatting and the main event loop -/

/-- Two-digit cents field of `"%.2f"`. -/
def pad2 (n : Int) : String := if n < 10 then "0" ++ toString n else toString n

/-- `"%.2f" % (float(cents)/100.0)` for the non-negative integer-cent
amounts the program prints (exact, since such quotients are exactly
representable at two decimals). -/
def fmtDollars (cents : Int) : String :=
  toString (cents / 100) ++ "." ++ pad2 (cents % 100)

/-- `print_output`: emits one line when the amount changed, rendering the
amount `0` as `NA`; silent otherwise. -/
def print_output (o : Order) (side_string : String) (new_amnt old_amnt : Int) : List String :=
  if new_amnt ≠ old_amnt then
    if new_amnt ≠ 0 then
      [toString o.timestamp ++ " " ++ side_string ++ " " ++ fmtDollars new_amnt]
    else
      [toString o.timestamp ++ " " ++ side_string ++ " NA"]
  else []

/-- State of the `__main__` loop: the shared `Order` object, both books,
the cached totals and amounts, and the lines printed so far. -/
structure PState where
  ord : Order
  buy_ob : OrderBook
  sell_ob : OrderBook
  cached_total_bid_size : Int
  cached_total_ask_size : Int
  cached_buy_amnt : Int
  cached_sell_amnt : Int
  out : List String
  deriving DecidableEq, Repr

def initState : PState :=
  ⟨initOrder, emptyBook "B", emptyBook "S", 0, 0, 0, 0, []⟩

/-- The ask-side block of the loop body: if the sell book's total changed,
refresh the cache, recompute the buy amount and maybe print.  Returns the
new `(cached_total_ask_size, cached_buy_amnt, printed lines)`. -/
def askCheck (target : Int) (o : Order) (sell_ob : OrderBook)
    (cached_total_ask_size cached_buy_amnt : Int) : Option (Int × Int × List String) :=
  if sell_ob.total_size ≠ cached_total_ask_size then
    match sell_ob.calc_cost target with
    | none => none
    | some amt => some (sell_ob.total_size, amt, print_output o "B" amt cached_buy_amnt)
  else some (cached_total_ask_size, cached_buy_amnt, [])

/-- The bid-side block, symmetric to `askCheck`. -/
def bidCheck (target : Int) (o : Order) (buy_ob : OrderBook)
    (cached_total_bid_size cached_sell_amnt : Int) : Option (Int × Int × List String) :=
  if buy_ob.total_size ≠ cached_total_bid_size then
    match buy_ob.calc_cost target with
    | none => none
    | some amt => some (buy_ob.total_size, amt, print_output o "S" amt cached_sell_amnt)
  else some (cached_total_bid_size, cached_sell_amnt, [])

/-- One iteration of `for line in args["in_file"]`.  An `IndexError` from
`parse_message` is uncaught and kills the program (`none`); a `ValueError`
only writes a warning to stderr — crucially, the loop body then FALLS
THROUGH and processes the stale `single_order` object, because the
`except` clause has no `continue`. -/
def processLine (target : Int) (st : PState) (line : String) : Option PState :=
  let parsed := Order.parse_message st.ord line
  if parsed.2 = ParseOutcome.indexError then none
  else
    match st.buy_ob.process_order parsed.1 with
    | none => none
    | some buy =>
      match st.sell_ob.process_order parsed.1 with
      | none => none
      | some sell =>
        match askCheck target parsed.1 sell st.cached_total_ask_size st.cached_buy_amnt with
        | none => none
        | some (cask, cbuy, out1) =>
          match bidCheck target parsed.1 buy st.cached_total_bid_size st.cached_sell_amnt with
          | none => none
          | some (cbid, csell, out2) =>
            some ⟨parsed.1, buy, sell, cbid, cask, cbuy, csell, st.out ++ out1 ++ out2⟩

def runLines (target : Int) : PState → List String → Option PState
  | st, [] => some st
  | st, l :: rest =>
    match processLine target st l with
    | none => none
    | some st' => runLines target st' rest

/-- The whole pipeline: the list of lines printed to standard output, or
`none` if the program dies on an uncaught exception. -/
def runPipeline (target : Int) (lines : List String) : Option (List String) :=
  (runLines target initState lines).map (fun st => st.out)

/-! ### Specification-side definitions

`walkSpec` restates the cost walk in the spec's words: over a list of
`(price, size)` levels in execution-priority order, accumulate
`min(remaining, level_size) * level_price` and stop once nothing remains. -/

def walkSpec : Int → List (Int × Int) → Int
  | _, [] => 0
  | remaining, (p, s) :: rest =>
    if remaining ≤ 0 then 0
    else min remaining s * p + walkSpec (remaining - min remaining s) rest

/-! ### Reachability and invariants -/

/-- Book states reachable from a freshly constructed book by a sequence of
`process_order` calls that all complete without an uncaught exception,
where every processed order additionally satisfies the side condition `P`. -/
inductive ReachP (P : OrderBook → Order → Prop) : OrderBook → Prop where
  | init (s : String) (h : s = "B" ∨ s = "S") : ReachP P (emptyBook s)
  | step (b : OrderBook) (o : Order) (b' : OrderBook) (hb : ReachP P b) (hP : P b o)
      (h : b.process_order o = some b') : ReachP P b'

/-- Reachable by arbitrary `process_order` calls. -/
def ReachableBook (b : OrderBook) : Prop := ReachP (fun _ _ => True) b

/-- An add never reuses an id that is currently open on the book it lands
on (the spec's uniqueness assumption on open order ids). -/
def freshCond (b : OrderBook) (o : Order) : Prop :=
  o.type = "A" → o.side = b.side → alookup o.id b.order_map = none

/-- Well-formed event feed: adds carry a fresh id and a positive size,
reduces never exceed the remaining size of the order they target. -/
def validCond (b : OrderBook) (o : Order) : Prop :=
  (o.type = "A" → o.side = b.side → alookup o.id b.order_map = none ∧ 0 < o.size) ∧
  (o.type = "R" → ∀ e, alookup o.id b.order_map = some e → o.size ≤ e.size)

/-- Sum of the remaining sizes of all open orders. -/
def ordersSum (b : OrderBook) : Int := asumBy (fun e => e.size) b.order_map

/-- Contribution of one order entry to the aggregate at price `p`. -/
def priceContrib (e : OrderEntry) (p : Int) : Int :=
  if e.price = p then e.size else 0

/-- Aggregate size of the open orders resting at price `p`. -/
def perPriceSum (om : List (String × OrderEntry)) (p : Int) : Int :=
  asumBy (fun e => priceContrib e p) om

/-- Structural well-formedness that every reachable state enjoys: both
dicts have no duplicate key and `total_size` tracks the level sum. -/
structure StateOK (b : OrderBook) : Prop where
  nodup_pm : NodupKeys b.price_map
  nodup_om : NodupKeys b.order_map
  total_eq_levels : b.total_size = asum b.price_map

/-- Full coherence invariant, maintained by well-formed event feeds:
every level aggregates exactly the open orders at its price, absent
prices have no open orders, and all sizes are positive. -/
structure Coherent (b : OrderBook) : Prop where
  ok : StateOK b
  level_eq : ∀ p v, alookup p b.price_map = some v → v = perPriceSum b.order_map p
  level_pos : ∀ p v, alookup p b.price_map = some v → 0 < v
  absent_empty : ∀ p, alookup p b.price_map = none → perPriceSum b.order_map p = 0
  order_pos : ∀ i e, alookup i b.order_map = some e → 0 < e.size
  total_eq_orders : b.total_size = ordersSum b

/-! ### Concrete states used by counterexamples and witnesses -/

/-- Ask book holding a single 100-share order at 44.26. -/
def bookW : OrderBook := ⟨"S", 100, [(4426, 100)], [("w", ⟨4426, 100⟩)]⟩

def orderW : Order := ⟨1, "A", "w", 100, 4426, "S"⟩

/-- Ask book whose only liquidity rests at price 0, so that filling from it
has a genuine total cost of 0. -/
def bookC1zero : OrderBook := ⟨"S", 10, [(0, 10)], [("z", ⟨0, 10⟩)]⟩

/-- The duplicate-id scenario of C2: the same id added twice. -/
def orderC2a : Order := ⟨1, "A", "a", 10, 4426, "S"⟩
def orderC2b : Order := ⟨2, "A", "a", 5, 4426, "S"⟩
def bookC2a : OrderBook := ⟨"S", 10, [(4426, 10)], [("a", ⟨4426, 10⟩)]⟩
def bookC2cex : OrderBook := ⟨"S", 15, [(4426, 15)], [("a", ⟨4426, 5⟩)]⟩

/-- The over-reduction scenario of C3: order `a` has 5 left, reduce by 10. -/
def bookC3 : OrderBook := ⟨"S", 5, [(100, 5)], [("a", ⟨100, 5⟩)]⟩
def orderC3red : Order := ⟨9, "R", "a", 10, 0, ""⟩
def bookC3cex : OrderBook := ⟨"S", -5, [(100, -5)], [("a", ⟨100, -5⟩)]⟩

/-- The zero-size add of C4. -/
def orderC4 : Order := ⟨1, "A", "z", 0, 100, "S"⟩
def bookC4cex : OrderBook := ⟨"S", 0, [(100, 0)], [("z", ⟨100, 0⟩)]⟩

/-- One-level book for the C6 monotonicity counterexample. -/
def bookC6 : OrderBook := ⟨"S", 5, [(10, 5)], [("a", ⟨10, 5⟩)]⟩

/-- The four-line end-to-end scenario of C7 (target 200). -/
def c7Lines : List String :=
  ["28800538 A b S 44.26 100", "28800562 A c B 44.10 100",
   "28800592 A a S 44.25 100", "28800642 R a 100"]

/-- What the program actually prints on `c7Lines`. -/
def c7Actual : List String := ["28800592 B 8851.00", "28800642 B NA"]

/-- The output the claim expects on `c7Lines`. -/
def c7Claimed : List String := ["28800538 B NA", "28800592 B 44.26", "28800642 B NA"]

/-- C8: one well-formed add followed by a line whose price token is not
numeric (a `ValueError` in `float()`, caught by the loop). -/
def c8Line1 : String := "28800538 A b S 44.26 100"
def c8Line2 : String := "28800600 A d S xx.xx 100"

/-! ## Lemmas about the dict model -/

section AListLemmas

variable {κ : Type} {ν : Type} [DecidableEq κ]
variable {k k' : κ} {v w : ν} {m : List (κ × ν)} {f : ν → Int}

theorem alookup_aset_self : ∀ m : List (κ × ν), alookup k (aset k v m) = some v := by
  intro m
  induction m with
  | nil => simp [aset, alookup]
  | cons e t ih =>
    by_cases hk : e.1 = k <;> simp [aset, alookup, hk, ih]

theorem alookup_aset_ne (h : k' ≠ k) :
    ∀ m : List (κ × ν), alookup k' (aset k v m) = alookup k' m := by
  intro m
  induction m with
  | nil => simp [aset, alookup, Ne.symm h]
  | cons e t ih =>
    by_cases hk : e.1 = k
    · simp [aset, alookup, hk, Ne.symm h]
    · by_cases hk' : e.1 = k'
      · simp [aset, alookup, hk, hk', h]
      · simp [aset, alookup, hk, hk', ih]

theorem alookup_aerase_self : ∀ m : List (κ × ν), alookup k (aerase k m) = none := by
  intro m
  induction m with
  | nil => simp [aerase, alookup]
  | cons e t ih =>
    by_cases hk : e.1 = k <;> simp [aerase, alookup, hk, ih]

theorem alookup_aerase_ne (h : k' ≠ k) :
    ∀ m : List (κ × ν), alookup k' (aerase k m) = alookup k' m := by
  intro m
  induction m with
  | nil => simp [aerase, alookup]
  | cons e t ih =>
    by_cases hk : e.1 = k
    · simp [aerase, alookup, hk, Ne.symm h, ih]
    · by_cases hk' : e.1 = k'
      · simp [aerase, alookup, hk, hk', ih, h]
      · simp [aerase, alookup, hk, hk', ih]

theorem alookup_eq_none_iff : ∀ m : List (κ × ν), alookup k m = none ↔ k ∉ keysOf m := by
  intro m
  induction m with
  | nil => simp [alookup, keysOf]
  | cons e t ih =>
    by_cases hk : e.1 = k
    · simp [alookup, keysOf, hk]
    · simp [alookup, keysOf, hk, Ne.symm hk, ih]

theorem alookup_mem : ∀ {m : List (κ × ν)}, alookup k m = some v → (k, v) ∈ m := by
  intro m
  induction m with
  | nil => simp [alookup]
  | cons e t ih =>
    by_cases hk : e.1 = k
    · subst hk
      simp [alookup]
      rintro rfl
      left
      rfl
    · simp [alookup, hk]
      intro h
      exact Or.inr (ih h)

theorem mem_keys_of_alookup (h : alookup k m = some v) : k ∈ keysOf m := by
  by_contra hmem
  rw [← alookup_eq_none_iff (k := k) m] at hmem
  rw [h] at hmem
  exact Option.noConfusion hmem

theorem alookup_isSome_of_mem_keys (h : k ∈ keysOf m) : (alookup k m).isSome := by
  cases hl : alookup k m with
  | none => exact absurd ((alookup_eq_none_iff m).1 hl) (fun hn => hn h)
  | some v => rfl

theorem nodupKeys_cons {e : κ × ν} {t : List (κ × ν)} (h : NodupKeys (e :: t)) :
    e.1 ∉ keysOf t ∧ NodupKeys t :=
  List.nodup_cons.mp h

theorem alookup_of_mem_nodup :
    ∀ {m : List (κ × ν)}, NodupKeys m → (k, v) ∈ m → alookup k m = some v := by
  intro m
  induction m with
  | nil => simp
  | cons e t ih =>
    intro hnd hmem
    rcases List.mem_cons.1 hmem with heq | hmem'
    · rw [← heq]
      simp [alookup]
    · have hk : e.1 ≠ k := fun hh => (nodupKeys_cons hnd).1 (by
        rw [hh]
        exact List.mem_map_of_mem Prod.fst hmem')
      simp [alookup, hk, ih (nodupKeys_cons hnd).2 hmem']

theorem aset_of_not_mem (h : k ∉ keysOf m) : aset k v m = m ++ [(k, v)] := by
  induction m with
  | nil => simp [aset]
  | cons e t ih =>
    simp [keysOf] at h
    simp [aset, h.1, ih (by simp [keysOf, h.2])]
    intro hk
    exact absurd hk.symm h.1

theorem keysOf_aset_mem : ∀ {m : List (κ × ν)}, k ∈ keysOf m →
    keysOf (aset k v m) = keysOf m := by
  intro m
  induction m with
  | nil => simp [keysOf]
  | cons e t ih =>
    intro h
    by_cases hk : e.1 = k
    · simp [aset, hk, keysOf]
    · have hmem : k ∈ keysOf t := by
        have hh : keysOf (e :: t) = e.1 :: keysOf t := rfl
        rw [hh] at h
        rcases List.mem_cons.1 h with h | h
        · exact absurd h.symm hk
        · exact h
      have h2 := ih hmem
      simp [aset, hk, keysOf] at h2 ⊢
      exact h2

theorem nodup_aset (h : NodupKeys m) : NodupKeys (aset k v m) := by
  by_cases hk : k ∈ keysOf m
  · unfold NodupKeys
    rw [keysOf_aset_mem hk]
    exact h
  · have h2 : keysOf (aset k v m) = keysOf m ++ [k] := by
      rw [aset_of_not_mem hk]
      simp [keysOf]
    unfold NodupKeys
    rw [h2]
    exact List.Nodup.append h (List.nodup_singleton k)
      (fun a ha hb => by
        simp at hb
        exact hk (hb ▸ ha))

theorem aerase_sublist : ∀ m : List (κ × ν), List.Sublist (aerase k m) m := by
  intro m
  induction m with
  | nil => simp [aerase]
  | cons e t ih =>
    by_cases hk : e.1 = k
    · simpa [aerase, hk] using ih.cons e
    · simpa [aerase, hk] using ih.cons₂ e

theorem nodup_aerase (h : NodupKeys m) : NodupKeys (aerase k m) :=
  List.Nodup.sublist (List.Sublist.map Prod.fst (aerase_sublist m)) h

theorem aerase_of_not_mem : ∀ {m : List (κ × ν)}, k ∉ keysOf m → aerase k m = m := by
  intro m
  induction m with
  | nil => simp [aerase]
  | cons e t ih =>
    intro h
    have hh : keysOf (e :: t) = e.1 :: keysOf t := rfl
    rw [hh] at h
    have h1 : e.1 ≠ k := fun heq => h (heq ▸ List.mem_cons_self e.1 (keysOf t))
    have h2 : k ∉ keysOf t := fun hmem => h (List.mem_cons_of_mem _ hmem)
    simp [aerase, h1, ih h2]

theorem asumBy_append (m' : List (κ × ν)) :
    asumBy f (m ++ m') = asumBy f m + asumBy f m' := by
  simp [asumBy]

theorem asumBy_aset_none (h : alookup k m = none) :
    asumBy f (aset k v m) = asumBy f m + f v := by
  rw [aset_of_not_mem ((alookup_eq_none_iff m).1 h), asumBy_append]
  simp [asumBy]

theorem asumBy_aset_some :
    ∀ {m : List (κ × ν)}, alookup k m = some w →
      asumBy f (aset k v m) = asumBy f m - f w + f v := by
  intro m
  induction m with
  | nil => simp [alookup]
  | cons e t ih =>
    intro h
    by_cases hk : e.1 = k
    · simp [alookup, hk] at h
      subst h
      simp [aset, hk, asumBy]
      ring
    · simp [alookup, hk] at h
      simp [aset, hk, asumBy] at ih ⊢
      rw [ih h]
      ring

theorem asumBy_aerase_some :
    ∀ {m : List (κ × ν)}, NodupKeys m → alookup k m = some w →
      asumBy f (aerase k m) = asumBy f m - f w := by
  intro m
  induction m with
  | nil => simp [alookup]
  | cons e t ih =>
    intro hnd h
    by_cases hk : e.1 = k
    · simp [alookup, hk] at h
      have hkt : k ∉ keysOf t := by
        rw [← hk]
        exact (nodupKeys_cons hnd).1
      simp only [aerase, if_pos hk, aerase_of_not_mem hkt]
      simp only [asumBy, List.map_cons, List.sum_cons, h]
      ring
    · simp [alookup, hk] at h
      have h2 := ih (nodupKeys_cons hnd).2 h
      simp only [aerase, if_neg hk]
      simp only [asumBy, List.map_cons, List.sum_cons] at h2 ⊢
      rw [h2]
      ring

theorem sum_keys_asum :
    ∀ pm : List (Int × Int), NodupKeys pm →
      ((keysOf pm).map (fun p => (alookup p pm).getD 0)).sum = asum pm := by
  intro pm
  induction pm with
  | nil => simp [keysOf, asum, asumBy]
  | cons e t ih =>
    intro hnd
    have hkt : e.1 ∉ keysOf t := (nodupKeys_cons hnd).1
    have hmap : (keysOf t).map (fun p => (alookup p (e :: t)).getD 0) =
        (keysOf t).map (fun p => (alookup p t).getD 0) := by
      apply List.map_congr_left
      intro p hp
      have hpe : e.1 ≠ p := fun hh => hkt (hh ▸ hp)
      simp [alookup, hpe]
    have hh : keysOf (e :: t) = e.1 :: keysOf t := rfl
    rw [hh]
    simp only [List.map_cons, List.sum_cons]
    rw [show alookup e.1 (e :: t) = some e.2 by simp [alookup]]
    simp only [Option.getD_some]
    rw [hmap, ih (nodupKeys_cons hnd).2]
    simp [asum, asumBy]

end AListLemmas

/-! ## The cost walk -/

theorem walkSpec_nonpos {r : Int} (h : r ≤ 0) : ∀ lvls, walkSpec r lvls = 0 := by
  intro lvls
  cases lvls with
  | nil => rfl
  | cons e rest =>
    obtain ⟨p, s⟩ := e
    simp [walkSpec, h]

/-- The `while` loop of `calc_cost` equals the spec-side walk and cannot
run off the end of the price list, provided every price it will visit is a
key of the map and the remaining quantity fits in the sizes it will see. -/
theorem costLoop_eq_walkSpec (pm : List (Int × Int)) :
    ∀ (prices : List Int) (r c : Int),
      (∀ p ∈ prices, (alookup p pm).isSome) →
      r ≤ ((prices.map (fun p => (alookup p pm).getD 0)).sum) →
      costLoop pm prices r c =
        some (c + walkSpec r (prices.map (fun p => (p, (alookup p pm).getD 0)))) := by
  intro prices
  induction prices with
  | nil =>
    intro r c _ hsum
    simp at hsum
    simp [costLoop, walkSpec, not_lt.2 hsum]
  | cons p rest ih =>
    intro r c hmem hsum
    by_cases hr : r > 0
    · cases hs : alookup p pm with
      | none =>
        exact absurd (hmem p (List.mem_cons_self p rest)) (by simp [hs])
      | some s =>
        have hgd : (alookup p pm).getD 0 = s := by simp [hs]
        by_cases hrs : r ≥ s
        · have hmem' : ∀ q ∈ rest, (alookup q pm).isSome :=
            fun q hq => hmem q (List.mem_cons_of_mem p hq)
          have hsum' : r - s ≤ ((rest.map (fun q => (alookup q pm).getD 0)).sum) := by
            simp only [List.map_cons, List.sum_cons, hgd] at hsum
            linarith
          have hrec := ih (r - s) (c + p * s) hmem' hsum'
          have hmin : min r s = s := min_eq_right hrs
          simp only [costLoop, if_pos hr, hs, if_pos hrs, hrec]
          simp only [List.map_cons, walkSpec, if_neg (not_le.2 hr), hgd, hmin]
          congr 1
          ring
        · have hmin : min r s = r := min_eq_left (le_of_not_ge hrs)
          simp only [costLoop, if_pos hr, hs, if_neg hrs]
          simp only [List.map_cons, walkSpec, if_neg (not_le.2 hr), hgd, hmin]
          rw [sub_self, walkSpec_nonpos (le_refl 0)]
          congr 1
          ring
    · have hr0 : r ≤ 0 := le_of_not_lt hr
      simp only [costLoop, if_neg hr]
      rw [walkSpec_nonpos hr0]
      simp

/-- Whatever the side string, `calc_cost` walks a permutation of the keys. -/
theorem sortedPrices_perm (b : OrderBook) : (sortedPrices b).Perm (keysOf b.price_map) := by
  unfold sortedPrices
  split_ifs with h1 h2
  · exact List.perm_insertionSort _ _
  · exact List.perm_insertionSort _ _
  · exact List.Perm.refl _

/-- Evaluation of `calc_cost` on a structurally sound book with enough
liquidity: no crash, and the result is the spec-side walk over the sorted
levels. -/
theorem calc_cost_eq_walkSpec (b : OrderBook) (t : Int)
    (hnd : NodupKeys b.price_map) (htot : b.total_size = asum b.price_map)
    (ht : t ≤ b.total_size) :
    b.calc_cost t =
      some (walkSpec t ((sortedPrices b).map (fun p => (p, (alookup p b.price_map).getD 0)))) := by
  have hperm := sortedPrices_perm b
  have hmem : ∀ p ∈ sortedPrices b, (alookup p b.price_map).isSome := by
    intro p hp
    exact alookup_isSome_of_mem_keys (hperm.mem_iff.1 hp)
  have hsum : ((sortedPrices b).map (fun p => (alookup p b.price_map).getD 0)).sum
      = asum b.price_map := by
    rw [List.Perm.sum_eq (hperm.map (fun p => (alookup p b.price_map).getD 0))]
    exact sum_keys_asum b.price_map hnd
  have := costLoop_eq_walkSpec b.price_map (sortedPrices b) t 0 hmem (by rw [hsum, ← htot]; exact ht)
  unfold OrderBook.calc_cost
  rw [if_pos (by linarith : b.total_size ≥ t), this, zero_add]

/-- The spec walk is non-negative on non-negative prices and sizes. -/
theorem walkSpec_nonneg : ∀ (lvls : List (Int × Int)) (r : Int),
    (∀ e ∈ lvls, 0 ≤ e.1 ∧ 0 ≤ e.2) → 0 ≤ walkSpec r lvls := by
  intro lvls
  induction lvls with
  | nil =>
    intro r _
    simp [walkSpec]
  | cons e rest ih =>
    intro r h
    obtain ⟨p, s⟩ := e
    by_cases hr : r ≤ 0
    · simp [walkSpec, hr]
    · have hp := h (p, s) (List.mem_cons_self _ _)
      have hrec := ih (r - min r s) (fun e he => h e (List.mem_cons_of_mem _ he))
      have hmin : 0 ≤ min r s := le_min (by linarith) hp.2
      have : 0 ≤ min r s * p := mul_nonneg hmin hp.1
      simp only [walkSpec, if_neg hr]
      linarith

/-- The spec walk is monotone in the remaining quantity, on non-negative
prices and sizes. -/
theorem walkSpec_mono : ∀ (lvls : List (Int × Int)) (t t' : Int),
    0 ≤ t → t ≤ t' → (∀ e ∈ lvls, 0 ≤ e.1 ∧ 0 ≤ e.2) →
    walkSpec t lvls ≤ walkSpec t' lvls := by
  intro lvls
  induction lvls with
  | nil =>
    intro t t' _ _ _
    simp [walkSpec]
  | cons e rest ih =>
    intro t t' ht htt h
    obtain ⟨p, s⟩ := e
    by_cases ht0 : t ≤ 0
    · rw [show walkSpec t ((p, s) :: rest) = 0 from walkSpec_nonpos ht0 _]
      exact walkSpec_nonneg _ _ h
    · have ht0' : ¬t' ≤ 0 := by linarith
      have hp := h (p, s) (List.mem_cons_self _ _)
      have htail : ∀ e ∈ rest, 0 ≤ e.1 ∧ 0 ≤ e.2 := fun e he => h e (List.mem_cons_of_mem _ he)
      have hminle : min t s ≤ min t' s := min_le_min htt (le_refl s)
      have hterm : min t s * p ≤ min t' s * p := mul_le_mul_of_nonneg_right hminle hp.1
      have hrem0 : 0 ≤ t - min t s := by
        have := min_le_left t s
        linarith
      have hremle : t - min t s ≤ t' - min t' s := by
        rcases le_total s t with hst | hts
        · rw [min_eq_right hst, min_eq_right (by linarith)]
          linarith
        · rw [min_eq_left hts]
          have := min_le_left t' s
          linarith
      have hrec := ih (t - min t s) (t' - min t' s) hrem0 hremle htail
      simp only [walkSpec, if_neg ht0, if_neg ht0']
      linarith

/-! ## Structural invariants of reachable books -/

theorem stateOK_empty (s : String) : StateOK (emptyBook s) := by
  refine ⟨?_, ?_, ?_⟩ <;> simp [emptyBook, NodupKeys, keysOf, asum, asumBy]

theorem stateOK_add (b : OrderBook) (o : Order) (h : StateOK b) :
    StateOK (b.add_order o) := by
  unfold OrderBook.add_order
  by_cases hside : o.side = b.side
  · rw [if_pos hside]
    cases hpv : alookup o.price b.price_map with
    | none =>
      refine ⟨nodup_aset h.nodup_pm, nodup_aset h.nodup_om, ?_⟩
      have := asumBy_aset_none (f := id) (v := o.size) hpv
      simp only [asum, id] at *
      rw [this]
      have := h.total_eq_levels
      simp only [asum] at this
      linarith
    | some v =>
      refine ⟨nodup_aset h.nodup_pm, nodup_aset h.nodup_om, ?_⟩
      have := asumBy_aset_some (f := id) (v := v + o.size) hpv
      simp only [asum, id] at *
      rw [this]
      have := h.total_eq_levels
      simp only [asum] at this
      linarith
  · rw [if_neg hside]
    exact h

theorem stateOK_reduce (b : OrderBook) (o : Order) (b' : OrderBook) (h : StateOK b)
    (hred : b.reduce_order o = some b') : StateOK b' := by
  cases hlk : alookup o.id b.order_map with
  | none =>
    simp only [OrderBook.reduce_order, hlk, Option.some.injEq] at hred
    rw [← hred]
    exact h
  | some cur =>
    cases hpv : alookup cur.price b.price_map with
    | none =>
      simp only [OrderBook.reduce_order, hlk, hpv] at hred
      exact Option.noConfusion hred
    | some lv =>
      simp only [OrderBook.reduce_order, hlk, hpv, Option.some.injEq] at hred
      have hnds : NodupKeys (aset cur.price (lv - o.size) b.price_map) :=
        nodup_aset h.nodup_pm
      have hset : asum (aset cur.price (lv - o.size) b.price_map)
          = asum b.price_map - lv + (lv - o.size) := by
        have := asumBy_aset_some (f := id) (v := lv - o.size) hpv
        simpa [asum, id] using this
      have hlkset : alookup cur.price (aset cur.price (lv - o.size) b.price_map)
          = some (lv - o.size) := alookup_aset_self _
      have herase : asum (aerase cur.price (aset cur.price (lv - o.size) b.price_map))
          = asum (aset cur.price (lv - o.size) b.price_map) - (lv - o.size) := by
        have := asumBy_aerase_some (f := id) hnds hlkset
        simpa [asum, id] using this
      have htot := h.total_eq_levels
      rw [← hred]
      split_ifs with h1 h2 h3 <;>
        refine ⟨?_, ?_, ?_⟩ <;>
          simp only [asum] at * <;>
          first
            | exact nodup_aerase hnds
            | exact hnds
            | exact nodup_aerase (nodup_aset h.nodup_om)
            | exact nodup_aset h.nodup_om
            | linarith

theorem stateOK_step (b : OrderBook) (o : Order) (b' : OrderBook) (h : StateOK b)
    (hp : b.process_order o = some b') : StateOK b' := by
  unfold OrderBook.process_order at hp
  split_ifs at hp with hA hR
  · injection hp with h'
    rw [← h']
    exact stateOK_add b o h
  · exact stateOK_reduce b o b' h hp
  · injection hp with h'
    rw [← h']
    exact h

/-- Every reachable state (under any side condition on the events) has
duplicate-free dicts and a `total_size` equal to the sum of the levels. -/
theorem reachP_stateOK (P : OrderBook → Order → Prop) :
    ∀ b, ReachP P b → StateOK b := by
  intro b h
  induction h with
  | init s _ => exact stateOK_empty s
  | step b o b' _ _ hstep ih => exact stateOK_step b o b' ih hstep

theorem ordersSum_add (b : OrderBook) (o : Order)
    (hfresh : o.side = b.side → alookup o.id b.order_map = none)
    (h4 : b.total_size = ordersSum b) :
    (b.add_order o).total_size = ordersSum (b.add_order o) := by
  unfold OrderBook.add_order
  by_cases hside : o.side = b.side
  · rw [if_pos hside]
    have hnone := hfresh hside
    have hsum := asumBy_aset_none (f := fun e => e.size)
      (v := (⟨o.price, o.size⟩ : OrderEntry)) hnone
    cases hpv : alookup o.price b.price_map <;>
      · simp only [ordersSum] at *
        rw [hsum]
        linarith
  · rw [if_neg hside]
    exact h4

theorem ordersSum_reduce (b : OrderBook) (o : Order) (b' : OrderBook)
    (hnd : NodupKeys b.order_map) (h4 : b.total_size = ordersSum b)
    (hred : b.reduce_order o = some b') : b'.total_size = ordersSum b' := by
  cases hlk : alookup o.id b.order_map with
  | none =>
    simp only [OrderBook.reduce_order, hlk, Option.some.injEq] at hred
    rw [← hred]
    exact h4
  | some cur =>
    cases hpv : alookup cur.price b.price_map with
    | none =>
      simp only [OrderBook.reduce_order, hlk, hpv] at hred
      exact Option.noConfusion hred
    | some lv =>
      simp only [OrderBook.reduce_order, hlk, hpv, Option.some.injEq] at hred
      have hset := asumBy_aset_some (f := fun e => e.size)
        (v := (⟨cur.price, cur.size - o.size⟩ : OrderEntry)) hlk
      have hnds : NodupKeys (aset o.id (⟨cur.price, cur.size - o.size⟩ : OrderEntry) b.order_map) :=
        nodup_aset hnd
      have hlkset : alookup o.id (aset o.id (⟨cur.price, cur.size - o.size⟩ : OrderEntry) b.order_map)
          = some ⟨cur.price, cur.size - o.size⟩ := alookup_aset_self _
      have herase := asumBy_aerase_some (f := fun e => e.size) hnds hlkset
      rw [← hred]
      split_ifs with h1 h2 h3 <;>
        · simp only [ordersSum, asumBy] at *
          linarith

theorem ordersSum_step (b : OrderBook) (o : Order) (b' : OrderBook)
    (hnd : NodupKeys b.order_map) (hfresh : freshCond b o)
    (h4 : b.total_size = ordersSum b) (hp : b.process_order o = some b') :
    b'.total_size = ordersSum b' := by
  unfold OrderBook.process_order at hp
  split_ifs at hp with hA hR
  · injection hp with h'
    rw [← h']
    exact ordersSum_add b o (hfresh hA) h4
  · exact ordersSum_reduce b o b' hnd h4 hp
  · injection hp with h'
    rw [← h']
    exact h4

/-- Books reachable by feeds whose adds never reuse an open id keep
`total_size` equal to the orders sum as well. -/
theorem reachF_total_eq_ordersSum :
    ∀ b, ReachP freshCond b → b.total_size = ordersSum b := by
  intro b h
  induction h with
  | init s _ => simp [emptyBook, ordersSum, asumBy]
  | step b o b' hb hP hstep ih =>
    exact ordersSum_step b o b' (reachP_stateOK freshCond b hb).nodup_om hP ih hstep

/-! ## The coherence invariant of well-formed feeds -/

theorem priceContrib_nonneg {e : OrderEntry} {p : Int} (h : 0 ≤ e.size) :
    0 ≤ priceContrib e p := by
  unfold priceContrib
  split_ifs <;> simp [h]

theorem priceContrib_self (e : OrderEntry) : priceContrib e e.price = e.size := by
  simp [priceContrib]

theorem priceContrib_ne {e : OrderEntry} {p : Int} (h : e.price ≠ p) :
    priceContrib e p = 0 := by
  simp [priceContrib, h]

/-- One entry's size is at most the aggregate at its price, when all open
orders are positive. -/
theorem perPriceSum_ge_entry {om : List (String × OrderEntry)} {i : String} {e : OrderEntry}
    (hnd : NodupKeys om) (hlk : alookup i om = some e)
    (hpos : ∀ j e', alookup j om = some e' → 0 < e'.size) :
    e.size ≤ perPriceSum om e.price := by
  have hmem : (i, e) ∈ om := alookup_mem hlk
  have hx : priceContrib e e.price ∈ om.map (fun ent => priceContrib ent.2 e.price) :=
    List.mem_map_of_mem (fun ent => priceContrib ent.2 e.price) hmem
  have hnn : ∀ x ∈ om.map (fun ent => priceContrib ent.2 e.price), 0 ≤ x := by
    intro x hxm
    rcases List.mem_map.1 hxm with ⟨ent, hm, rfl⟩
    have := hpos ent.1 ent.2 (alookup_of_mem_nodup hnd hm)
    exact priceContrib_nonneg (le_of_lt this)
  have := List.single_le_sum hnn _ hx
  rw [priceContrib_self] at this
  exact this

theorem coherent_empty (s : String) : Coherent (emptyBook s) := by
  refine ⟨stateOK_empty s, ?_, ?_, ?_, ?_, ?_⟩ <;>
    simp [emptyBook, alookup, ordersSum, perPriceSum, asumBy]

theorem coherent_add (b : OrderBook) (o : Order) (h : Coherent b)
    (hc : o.side = b.side → alookup o.id b.order_map = none ∧ 0 < o.size) :
    Coherent (b.add_order o) := by
  by_cases hside : o.side = b.side
  · obtain ⟨hfresh, hpos⟩ := hc hside
    have hok' := stateOK_add b o h.ok
    -- aggregate effect of the new entry on every per-price sum
    have homsum : ∀ p, perPriceSum (aset o.id (⟨o.price, o.size⟩ : OrderEntry) b.order_map) p
        = perPriceSum b.order_map p + priceContrib ⟨o.price, o.size⟩ p := by
      intro p
      exact asumBy_aset_none (f := fun e => priceContrib e p) hfresh
    have homlk : ∀ j, j ≠ o.id →
        alookup j (aset o.id (⟨o.price, o.size⟩ : OrderEntry) b.order_map)
          = alookup j b.order_map := fun j hj => alookup_aset_ne hj _
    have homlk₀ : alookup o.id (aset o.id (⟨o.price, o.size⟩ : OrderEntry) b.order_map)
        = some ⟨o.price, o.size⟩ := alookup_aset_self _
    unfold OrderBook.add_order at hok' ⊢
    rw [if_pos hside] at hok' ⊢
    cases hpv : alookup o.price b.price_map with
    | none =>
      rw [hpv] at hok'
      refine ⟨hok', ?_, ?_, ?_, ?_, ?_⟩
      · intro p w hw
        by_cases hp : p = o.price
        · rw [hp, alookup_aset_self] at hw
          injection hw with hw
          rw [homsum, hp, ← hw, priceContrib_self, h.absent_empty o.price hpv]
          ring
        · rw [alookup_aset_ne hp] at hw
          rw [homsum, priceContrib_ne (fun hh => hp hh.symm)]
          rw [h.level_eq p w hw]
          ring
      · intro p w hw
        by_cases hp : p = o.price
        · rw [hp, alookup_aset_self] at hw
          injection hw with hw
          omega
        · rw [alookup_aset_ne hp] at hw
          exact h.level_pos p w hw
      · intro p hw
        by_cases hp : p = o.price
        · rw [hp, alookup_aset_self] at hw
          exact Option.noConfusion hw
        · rw [alookup_aset_ne hp] at hw
          rw [homsum, priceContrib_ne (fun hh => hp hh.symm), h.absent_empty p hw]
          ring
      · intro j e hj
        by_cases hje : j = o.id
        · rw [hje, homlk₀] at hj
          injection hj with hj
          rw [← hj]
          exact hpos
        · rw [homlk j hje] at hj
          exact h.order_pos j e hj
      · have hsum := asumBy_aset_none (f := fun e => e.size)
          (v := (⟨o.price, o.size⟩ : OrderEntry)) hfresh
        have h6 := h.total_eq_orders
        simp only [ordersSum] at h6 ⊢
        rw [hsum]
        linarith
    | some v =>
      rw [hpv] at hok'
      refine ⟨hok', ?_, ?_, ?_, ?_, ?_⟩
      · intro p w hw
        by_cases hp : p = o.price
        · rw [hp, alookup_aset_self] at hw
          injection hw with hw
          rw [homsum, hp, ← hw, priceContrib_self, ← h.level_eq o.price v hpv]
        · rw [alookup_aset_ne hp] at hw
          rw [homsum, priceContrib_ne (fun hh => hp hh.symm)]
          rw [h.level_eq p w hw]
          ring
      · intro p w hw
        by_cases hp : p = o.price
        · rw [hp, alookup_aset_self] at hw
          injection hw with hw
          have := h.level_pos o.price v hpv
          omega
        · rw [alookup_aset_ne hp] at hw
          exact h.level_pos p w hw
      · intro p hw
        by_cases hp : p = o.price
        · rw [hp, alookup_aset_self] at hw
          exact Option.noConfusion hw
        · rw [alookup_aset_ne hp] at hw
          rw [homsum, priceContrib_ne (fun hh => hp hh.symm), h.absent_empty p hw]
          ring
      · intro j e hj
        by_cases hje : j = o.id
        · rw [hje, homlk₀] at hj
          injection hj with hj
          rw [← hj]
          exact hpos
        · rw [homlk j hje] at hj
          exact h.order_pos j e hj
      · have hsum := asumBy_aset_none (f := fun e => e.size)
          (v := (⟨o.price, o.size⟩ : OrderEntry)) hfresh
        have h6 := h.total_eq_orders
        simp only [ordersSum] at h6 ⊢
        rw [hsum]
        linarith
  · unfold OrderBook.add_order
    rw [if_neg hside]
    exact h

theorem coherent_reduce (b : OrderBook) (o : Order) (b' : OrderBook) (h : Coherent b)
    (hc : ∀ e, alookup o.id b.order_map = some e → o.size ≤ e.size)
    (hred0 : b.reduce_order o = some b') : Coherent b' := by
  have hred := hred0
  cases hlk : alookup o.id b.order_map with
  | none =>
    simp only [OrderBook.reduce_order, hlk, Option.some.injEq] at hred
    rw [← hred]
    exact h
  | some cur =>
    cases hpv : alookup cur.price b.price_map with
    | none =>
      simp only [OrderBook.reduce_order, hlk, hpv] at hred
      exact Option.noConfusion hred
    | some lv =>
      have hok' := stateOK_reduce b o b' h.ok hred0
      simp only [OrderBook.reduce_order, hlk, hpv, Option.some.injEq] at hred
      have hrle : o.size ≤ cur.size := hc cur hlk
      have hlv_eq : lv = perPriceSum b.order_map cur.price := h.level_eq _ _ hpv
      have hcs_le : cur.size ≤ perPriceSum b.order_map cur.price :=
        perPriceSum_ge_entry h.ok.nodup_om hlk h.order_pos
      have hcs_lv : cur.size ≤ lv := hlv_eq ▸ hcs_le
      -- per-price sums after the in-place update of the reduced order
      have homset : ∀ p,
          perPriceSum (aset o.id (⟨cur.price, cur.size - o.size⟩ : OrderEntry) b.order_map) p
            = perPriceSum b.order_map p - priceContrib cur p
              + priceContrib ⟨cur.price, cur.size - o.size⟩ p :=
        fun p => asumBy_aset_some (f := fun e => priceContrib e p) hlk
      have hnds :
          NodupKeys (aset o.id (⟨cur.price, cur.size - o.size⟩ : OrderEntry) b.order_map) :=
        nodup_aset h.ok.nodup_om
      have homlk₀ :
          alookup o.id (aset o.id (⟨cur.price, cur.size - o.size⟩ : OrderEntry) b.order_map)
            = some ⟨cur.price, cur.size - o.size⟩ := alookup_aset_self _
      have homlk : ∀ j, j ≠ o.id →
          alookup j (aset o.id (⟨cur.price, cur.size - o.size⟩ : OrderEntry) b.order_map)
            = alookup j b.order_map := fun j hj => alookup_aset_ne hj _
      -- per-price sums after erasing the zeroed order
      have homerase : ∀ p,
          perPriceSum (aerase o.id
              (aset o.id (⟨cur.price, cur.size - o.size⟩ : OrderEntry) b.order_map)) p
            = perPriceSum
                (aset o.id (⟨cur.price, cur.size - o.size⟩ : OrderEntry) b.order_map) p
              - priceContrib ⟨cur.price, cur.size - o.size⟩ p :=
        fun p => asumBy_aerase_some (f := fun e => priceContrib e p) hnds homlk₀
      have homelk : ∀ j, j ≠ o.id →
          alookup j (aerase o.id
              (aset o.id (⟨cur.price, cur.size - o.size⟩ : OrderEntry) b.order_map))
            = alookup j
                (aset o.id (⟨cur.price, cur.size - o.size⟩ : OrderEntry) b.order_map) :=
        fun j hj => alookup_aerase_ne hj _
      have homelk₀ :
          alookup o.id (aerase o.id
              (aset o.id (⟨cur.price, cur.size - o.size⟩ : OrderEntry) b.order_map)) = none :=
        alookup_aerase_self _
      -- order-size sums
      have hordset :
          asumBy (fun e => e.size)
              (aset o.id (⟨cur.price, cur.size - o.size⟩ : OrderEntry) b.order_map)
            = asumBy (fun e => e.size) b.order_map - cur.size + (cur.size - o.size) :=
        asumBy_aset_some (f := fun e => e.size) hlk
      have horderase :
          asumBy (fun e => e.size)
              (aerase o.id
                (aset o.id (⟨cur.price, cur.size - o.size⟩ : OrderEntry) b.order_map))
            = asumBy (fun e => e.size)
                (aset o.id (⟨cur.price, cur.size - o.size⟩ : OrderEntry) b.order_map)
              - (cur.size - o.size) :=
        asumBy_aerase_some (f := fun e => e.size) hnds homlk₀
      -- price-map lookups
      have hpmlk₀ : alookup cur.price (aset cur.price (lv - o.size) b.price_map)
          = some (lv - o.size) := alookup_aset_self _
      have hpmlk : ∀ p, p ≠ cur.price →
          alookup p (aset cur.price (lv - o.size) b.price_map) = alookup p b.price_map :=
        fun p hp => alookup_aset_ne hp _
      have hpmelk : ∀ p, p ≠ cur.price →
          alookup p (aerase cur.price (aset cur.price (lv - o.size) b.price_map))
            = alookup p (aset cur.price (lv - o.size) b.price_map) :=
        fun p hp => alookup_aerase_ne hp _
      have hpmelk₀ :
          alookup cur.price (aerase cur.price (aset cur.price (lv - o.size) b.price_map))
            = none := alookup_aerase_self _
      have htot := h.total_eq_orders
      subst hred
      split_ifs at hok' ⊢ with h1 h2 h3
      -- branch 1: level removed, order removed
      · refine ⟨hok', ?_, ?_, ?_, ?_, ?_⟩
        · intro p w hw
          dsimp only at hw ⊢
          by_cases hp : p = cur.price
          · subst hp
            rw [hpmelk₀] at hw
            exact Option.noConfusion hw
          · have hp' : cur.price ≠ p := fun hh => hp hh.symm
            rw [hpmelk p hp, hpmlk p hp] at hw
            rw [homerase, homset]
            simp only [priceContrib, if_neg hp']
            linarith [h.level_eq p w hw]
        · intro p w hw
          dsimp only at hw
          by_cases hp : p = cur.price
          · subst hp
            rw [hpmelk₀] at hw
            exact Option.noConfusion hw
          · rw [hpmelk p hp, hpmlk p hp] at hw
            exact h.level_pos p w hw
        · intro p hw
          dsimp only at hw ⊢
          by_cases hp : p = cur.price
          · subst hp
            rw [homerase, homset]
            simp [priceContrib]
            linarith [hlv_eq]
          · have hp' : cur.price ≠ p := fun hh => hp hh.symm
            rw [hpmelk p hp, hpmlk p hp] at hw
            rw [homerase, homset]
            simp only [priceContrib, if_neg hp']
            linarith [h.absent_empty p hw]
        · intro j e hj
          dsimp only at hj
          by_cases hje : j = o.id
          · rw [hje, homelk₀] at hj
            exact Option.noConfusion hj
          · rw [homelk j hje, homlk j hje] at hj
            exact h.order_pos j e hj
        · dsimp only
          simp only [ordersSum] at htot ⊢
          rw [horderase, hordset]
          linarith
      -- branch 2: level removed, order kept
      · refine ⟨hok', ?_, ?_, ?_, ?_, ?_⟩
        · intro p w hw
          dsimp only at hw ⊢
          by_cases hp : p = cur.price
          · subst hp
            rw [hpmelk₀] at hw
            exact Option.noConfusion hw
          · have hp' : cur.price ≠ p := fun hh => hp hh.symm
            rw [hpmelk p hp, hpmlk p hp] at hw
            rw [homset]
            simp only [priceContrib, if_neg hp']
            linarith [h.level_eq p w hw]
        · intro p w hw
          dsimp only at hw
          by_cases hp : p = cur.price
          · subst hp
            rw [hpmelk₀] at hw
            exact Option.noConfusion hw
          · rw [hpmelk p hp, hpmlk p hp] at hw
            exact h.level_pos p w hw
        · intro p hw
          dsimp only at hw ⊢
          by_cases hp : p = cur.price
          · subst hp
            rw [homset]
            simp [priceContrib]
            linarith [hlv_eq]
          · have hp' : cur.price ≠ p := fun hh => hp hh.symm
            rw [hpmelk p hp, hpmlk p hp] at hw
            rw [homset]
            simp only [priceContrib, if_neg hp']
            linarith [h.absent_empty p hw]
        · intro j e hj
          dsimp only at hj
          by_cases hje : j = o.id
          · rw [hje, homlk₀] at hj
            injection hj with hj
            rw [← hj]
            show 0 < cur.size - o.size
            omega
          · rw [homlk j hje] at hj
            exact h.order_pos j e hj
        · dsimp only
          simp only [ordersSum] at htot ⊢
          rw [hordset]
          linarith
      -- branch 3: level kept, order removed
      · refine ⟨hok', ?_, ?_, ?_, ?_, ?_⟩
        · intro p w hw
          dsimp only at hw ⊢
          by_cases hp : p = cur.price
          · subst hp
            rw [hpmlk₀] at hw
            injection hw with hw
            rw [homerase, homset]
            simp [priceContrib]
            linarith [hlv_eq]
          · have hp' : cur.price ≠ p := fun hh => hp hh.symm
            rw [hpmlk p hp] at hw
            rw [homerase, homset]
            simp only [priceContrib, if_neg hp']
            linarith [h.level_eq p w hw]
        · intro p w hw
          dsimp only at hw
          by_cases hp : p = cur.price
          · subst hp
            rw [hpmlk₀] at hw
            injection hw with hw
            omega
          · rw [hpmlk p hp] at hw
            exact h.level_pos p w hw
        · intro p hw
          dsimp only at hw ⊢
          by_cases hp : p = cur.price
          · subst hp
            rw [hpmlk₀] at hw
            exact Option.noConfusion hw
          · have hp' : cur.price ≠ p := fun hh => hp hh.symm
            rw [hpmlk p hp] at hw
            rw [homerase, homset]
            simp only [priceContrib, if_neg hp']
            linarith [h.absent_empty p hw]
        · intro j e hj
          dsimp only at hj
          by_cases hje : j = o.id
          · rw [hje, homelk₀] at hj
            exact Option.noConfusion hj
          · rw [homelk j hje, homlk j hje] at hj
            exact h.order_pos j e hj
        · dsimp only
          simp only [ordersSum] at htot ⊢
          rw [horderase, hordset]
          linarith
      -- branch 4: level kept, order kept
      · refine ⟨hok', ?_, ?_, ?_, ?_, ?_⟩
        · intro p w hw
          dsimp only at hw ⊢
          by_cases hp : p = cur.price
          · subst hp
            rw [hpmlk₀] at hw
            injection hw with hw
            rw [homset]
            simp [priceContrib]
            linarith [hlv_eq]
          · have hp' : cur.price ≠ p := fun hh => hp hh.symm
            rw [hpmlk p hp] at hw
            rw [homset]
            simp only [priceContrib, if_neg hp']
            linarith [h.level_eq p w hw]
        · intro p w hw
          dsimp only at hw
          by_cases hp : p = cur.price
          · subst hp
            rw [hpmlk₀] at hw
            injection hw with hw
            omega
          · rw [hpmlk p hp] at hw
            exact h.level_pos p w hw
        · intro p hw
          dsimp only at hw ⊢
          by_cases hp : p = cur.price
          · subst hp
            rw [hpmlk₀] at hw
            exact Option.noConfusion hw
          · have hp' : cur.price ≠ p := fun hh => hp hh.symm
            rw [hpmlk p hp] at hw
            rw [homset]
            simp only [priceContrib, if_neg hp']
            linarith [h.absent_empty p hw]
        · intro j e hj
          dsimp only at hj
          by_cases hje : j = o.id
          · rw [hje, homlk₀] at hj
            injection hj with hj
            rw [← hj]
            show 0 < cur.size - o.size
            omega
          · rw [homlk j hje] at hj
            exact h.order_pos j e hj
        · dsimp only
          simp only [ordersSum] at htot ⊢
          rw [hordset]
          linarith

theorem coherent_step (b : OrderBook) (o : Order) (b' : OrderBook) (h : Coherent b)
    (hvc : validCond b o) (hp : b.process_order o = some b') : Coherent b' := by
  unfold OrderBook.process_order at hp
  split_ifs at hp with hA hR
  · injection hp with h'
    rw [← h']
    exact coherent_add b o h (fun hside => hvc.1 hA hside)
  · exact coherent_reduce b o b' h (fun e he => hvc.2 hR e he) hp
  · injection hp with h'
    rw [← h']
    exact h

/-- Every book reachable under a well-formed feed satisfies the full
coherence invariant. -/
theorem reachV_coherent : ∀ b, ReachP validCond b → Coherent b := by
  intro b h
  induction h with
  | init s _ => exact coherent_empty s
  | step b o b' _ hP hstep ih => exact coherent_step b o b' ih hP hstep

/-! ### Facts about the concrete witness book -/

theorem bookW_reach : ReachableBook bookW :=
  ReachP.step (emptyBook "S") orderW bookW (ReachP.init "S" (Or.inr rfl))
    trivial (by decide)

theorem bookW_reachF : ReachP freshCond bookW :=
  ReachP.step (emptyBook "S") orderW bookW (ReachP.init "S" (Or.inr rfl))
    (fun _ _ => rfl) (by decide)

theorem bookW_reachV : ReachP validCond bookW :=
  ReachP.step (emptyBook "S") orderW bookW (ReachP.init "S" (Or.inr rfl))
    ⟨fun _ _ => ⟨rfl, by decide⟩, fun hR => absurd hR (by decide)⟩ (by decide)

theorem bookW_nodup : NodupKeys bookW.price_map := by
  simp [bookW, NodupKeys, keysOf]

theorem bookW_total : bookW.total_size = asum bookW.price_map := by decide

theorem bookW_level_pos : ∀ p v, alookup p bookW.price_map = some v → 0 < v := by
  intro p v h
  simp only [bookW, alookup] at h
  split_ifs at h with hh
  · injection h with h
    omega

theorem bookW_keys_nonneg : ∀ p ∈ keysOf bookW.price_map, (0 : Int) ≤ p := by
  intro p hp
  simp [bookW, keysOf] at hp
  omega

/-! ## Claims -/

/-- C1, counterexample.  The claim says that on insufficient liquidity
`calc_cost` returns a sentinel distinct from the numeric zero-cost result.
In fact it returns the plain integer `0`: the empty ask book with target 1
yields `0`, the very same value that a sufficient fill costing nothing
(all liquidity at price 0.00, target 10) also yields. -/
theorem c1_counterexample :
    (emptyBook "S").total_size < 1 ∧ (emptyBook "S").calc_cost 1 = some 0 ∧
      10 ≤ bookC1zero.total_size ∧ bookC1zero.calc_cost 10 = some 0 := by
  refine ⟨by decide, by decide, by decide, by decide⟩

/-- C1, amended: when `total_size < target`, `calc_cost` returns the plain
integer `0` — the same value as a genuine zero-cost fill — and it is
`print_output` that renders a `0` amount as the `NA` sentinel (so a true
zero-cost result would also print `NA`). -/
theorem c1_insufficient_returns_zero (b : OrderBook) (t : Int) (o : Order) (old_amnt : Int)
    (h : b.total_size < t) (h2 : old_amnt ≠ 0) :
    b.calc_cost t = some 0 ∧
      print_output o "B" 0 old_amnt = [toString o.timestamp ++ " " ++ "B" ++ " NA"] := by
  constructor
  · unfold OrderBook.calc_cost
    rw [if_neg (not_le.mpr h)]
  · unfold print_output
    rw [if_pos (Ne.symm h2), if_neg (fun hh => hh rfl)]

/-- C1, witness for the amended theorem at a concrete input. -/
theorem c1_witness :
    (emptyBook "S").total_size < 1 ∧ (5 : Int) ≠ 0 ∧
      ((emptyBook "S").calc_cost 1 = some 0 ∧
        print_output initOrder "B" 0 5 = [toString initOrder.timestamp ++ " " ++ "B" ++ " NA"]) :=
  ⟨by decide, by decide, c1_insufficient_returns_zero (emptyBook "S") 1 initOrder 5
    (by decide) (by decide)⟩

/-- C2, counterexample.  The claim asserts the two sum identities for every
book reachable by ANY sequence of `process_order` calls.  Adding the same
order id twice (allowed by `_add_order`, which overwrites the `order_map`
entry but still adds to `price_map` and `total_size`) produces a reachable
book with `total_size = 15` but an orders sum of `5`. -/
theorem c2_counterexample :
    ReachableBook bookC2cex ∧ bookC2cex.total_size = 15 ∧ ordersSum bookC2cex = 5 ∧
      bookC2cex.total_size ≠ ordersSum bookC2cex := by
  refine ⟨?_, by decide, by decide, by decide⟩
  exact ReachP.step bookC2a orderC2b bookC2cex
    (ReachP.step (emptyBook "S") orderC2a bookC2a (ReachP.init "S" (Or.inr rfl))
      trivial (by decide))
    trivial (by decide)

/-- C2, amended: for every book reachable by `process_order` calls in which
an Add landing on the book (matching side) never reuses a currently-open
order id, `total_size` equals the sum of all level sizes and also the sum
of all open-order sizes. -/
theorem c2_total_size_sums (b : OrderBook) (h : ReachP freshCond b) :
    b.total_size = asum b.price_map ∧ b.total_size = ordersSum b :=
  ⟨(reachP_stateOK freshCond b h).total_eq_levels, reachF_total_eq_ordersSum b h⟩

/-- C2, witness for the amended theorem at a concrete reachable book. -/
theorem c2_witness :
    ReachP freshCond bookW ∧
      (bookW.total_size = asum bookW.price_map ∧ bookW.total_size = ordersSum bookW) :=
  ⟨bookW_reachF, c2_total_size_sums bookW bookW_reachF⟩

/-- C3, counterexample.  The claim says a Reduce decrements by
`min(R, S)` and removes the order entry when its size reaches zero.  The
code subtracts the full requested size `R`: reducing order `a` (remaining
size 5) by 10 leaves `total_size = -5` (not `5 - min(10,5) = 0`) and keeps
the entry with size `-5` instead of removing it. -/
theorem c3_counterexample :
    bookC3.process_order orderC3red = some bookC3cex ∧
      bookC3cex.total_size ≠ bookC3.total_size - min orderC3red.size 5 ∧
      alookup "a" bookC3cex.order_map = some ⟨100, -5⟩ := by
  refine ⟨by decide, by decide, by decide⟩

/-- C3, amended: a Reduce for an open order decrements the order's size,
its level aggregate and `total_size` all by the FULL requested size `R`
(no clamping; over-reduction drives them negative), removes the order
entry exactly when the updated size is zero and the price key exactly when
the updated aggregate is zero. -/
theorem c3_reduce_applies_full_size (b : OrderBook) (i : String) (R S L ts : Int) (p : Int)
    (ho : alookup i b.order_map = some ⟨p, S⟩)
    (hp : alookup p b.price_map = some L) :
    ∃ b', b.process_order ⟨ts, "R", i, R, 0, ""⟩ = some b' ∧
      b'.total_size = b.total_size - R ∧
      alookup i b'.order_map = (if S - R = 0 then none else some ⟨p, S - R⟩) ∧
      alookup p b'.price_map = (if L - R = 0 then none else some (L - R)) := by
  unfold OrderBook.process_order
  rw [if_neg (by simp : ¬((⟨ts, "R", i, R, 0, ""⟩ : Order).type = "A")),
    if_pos (rfl : (⟨ts, "R", i, R, 0, ""⟩ : Order).type = "R")]
  simp only [OrderBook.reduce_order, ho, hp]
  refine ⟨_, rfl, ?_, ?_, ?_⟩
  · split_ifs <;> rfl
  · split_ifs with h1 h2 h3 <;> dsimp only
    · exact alookup_aerase_self _
    · exact alookup_aset_self _
    · exact alookup_aerase_self _
    · exact alookup_aset_self _
  · split_ifs with h1 h2 h3 <;> dsimp only
    · exact alookup_aerase_self _
    · exact alookup_aerase_self _
    · exact alookup_aset_self _
    · exact alookup_aset_self _

/-- C3, witness for the amended theorem: reduce order `a` (size 5, price
100, level aggregate 5) by 2. -/
theorem c3_witness :
    alookup "a" bookC3.order_map = some ⟨100, 5⟩ ∧
      alookup (100 : Int) bookC3.price_map = some 5 ∧
      (∃ b', bookC3.process_order ⟨9, "R", "a", 2, 0, ""⟩ = some b' ∧
        b'.total_size = bookC3.total_size - 2 ∧
        alookup "a" b'.order_map = (if (5 : Int) - 2 = 0 then none else some ⟨100, 5 - 2⟩) ∧
        alookup (100 : Int) b'.price_map = (if (5 : Int) - 2 = 0 then none else some (5 - 2))) :=
  ⟨by decide, by decide,
    c3_reduce_applies_full_size bookC3 "a" 2 5 5 9 100 (by decide) (by decide)⟩

/-- C4, counterexample.  The claim asserts strict positivity of all level
aggregates and order sizes for every book reachable by ANY sequence of
`process_order` calls; an Add carrying size 0 (nothing in the code rejects
it) immediately creates a level whose aggregate is 0. -/
theorem c4_counterexample :
    ReachableBook bookC4cex ∧ alookup (100 : Int) bookC4cex.price_map = some 0 ∧
      ¬(0 < (0 : Int)) :=
  ⟨ReachP.step (emptyBook "S") orderC4 bookC4cex (ReachP.init "S" (Or.inr rfl))
      trivial (by decide),
    by decide, by decide⟩

/-- C4, amended: for every book reachable by a well-formed feed — adds
landing on the book carry a fresh id and positive size, reduces never
exceed the targeted order's remaining size — every price present in the
level map has a strictly positive aggregate and every open order has a
strictly positive size. -/
theorem c4_positivity (b : OrderBook) (h : ReachP validCond b) :
    (∀ p v, alookup p b.price_map = some v → 0 < v) ∧
      (∀ i e, alookup i b.order_map = some e → 0 < e.size) :=
  ⟨(reachV_coherent b h).level_pos, (reachV_coherent b h).order_pos⟩

/-- C4, witness for the amended theorem at a concrete reachable book. -/
theorem c4_witness :
    ReachP validCond bookW ∧
      ((∀ p v, alookup p bookW.price_map = some v → 0 < v) ∧
        (∀ i e, alookup i bookW.order_map = some e → 0 < e.size)) :=
  ⟨bookW_reachV, c4_positivity bookW bookW_reachV⟩

/-- C5: on any reachable book with enough liquidity, `calc_cost` returns
the sum over the price levels — visited in execution-priority order,
ascending prices for the sell/ask book and descending for the buy/bid
book — of `min(remaining, level_size) * level_price`, decrementing
`remaining` at each level and stopping when it reaches zero (that walk is
`walkSpec`). -/
theorem c5_cost_walks_levels_in_priority_order (b : OrderBook) (t : Int)
    (hb : ReachableBook b) (ht : t ≤ b.total_size) :
    ∃ lvls : List (Int × Int),
      (lvls.map Prod.fst).Perm (keysOf b.price_map) ∧
      (b.side = "S" → List.Sorted (· ≤ ·) (lvls.map Prod.fst)) ∧
      (b.side = "B" → List.Sorted (· ≥ ·) (lvls.map Prod.fst)) ∧
      (∀ pr ∈ lvls, alookup pr.1 b.price_map = some pr.2) ∧
      b.calc_cost t = some (walkSpec t lvls) := by
  have hok := reachP_stateOK _ b hb
  refine ⟨(sortedPrices b).map (fun p => (p, (alookup p b.price_map).getD 0)), ?_, ?_, ?_, ?_, ?_⟩
  case _ =>
    have hkeys : ((sortedPrices b).map (fun p => (p, (alookup p b.price_map).getD 0))).map
        Prod.fst = sortedPrices b := by
      rw [List.map_map]
      rw [show (Prod.fst ∘ fun p : Int => (p, (alookup p b.price_map).getD 0)) = id from rfl,
        List.map_id]
    rw [hkeys]
    exact sortedPrices_perm b
  case _ =>
    intro hS
    have hkeys : ((sortedPrices b).map (fun p => (p, (alookup p b.price_map).getD 0))).map
        Prod.fst = sortedPrices b := by
      rw [List.map_map]
      rw [show (Prod.fst ∘ fun p : Int => (p, (alookup p b.price_map).getD 0)) = id from rfl,
        List.map_id]
    rw [hkeys]
    unfold sortedPrices
    rw [if_neg (by rw [hS]; decide), if_pos hS]
    exact List.sorted_insertionSort _ _
  case _ =>
    intro hB
    have hkeys : ((sortedPrices b).map (fun p => (p, (alookup p b.price_map).getD 0))).map
        Prod.fst = sortedPrices b := by
      rw [List.map_map]
      rw [show (Prod.fst ∘ fun p : Int => (p, (alookup p b.price_map).getD 0)) = id from rfl,
        List.map_id]
    rw [hkeys]
    unfold sortedPrices
    rw [if_pos hB]
    exact List.sorted_insertionSort _ _
  case _ =>
    intro pr hpr
    rcases List.mem_map.1 hpr with ⟨p, hp, rfl⟩
    have hpk : p ∈ keysOf b.price_map := (sortedPrices_perm b).mem_iff.1 hp
    cases hlo : alookup p b.price_map with
    | none =>
      have := alookup_isSome_of_mem_keys hpk
      rw [hlo] at this
      simp at this
    | some v => simp [hlo]
  case _ =>
    exact calc_cost_eq_walkSpec b t hok.nodup_pm hok.total_eq_levels ht

/-- C5, witness at a concrete reachable ask book with target 50. -/
theorem c5_witness :
    (ReachableBook bookW ∧ (50 : Int) ≤ bookW.total_size) ∧
      (∃ lvls : List (Int × Int),
        (lvls.map Prod.fst).Perm (keysOf bookW.price_map) ∧
        (bookW.side = "S" → List.Sorted (· ≤ ·) (lvls.map Prod.fst)) ∧
        (bookW.side = "B" → List.Sorted (· ≥ ·) (lvls.map Prod.fst)) ∧
        (∀ pr ∈ lvls, alookup pr.1 bookW.price_map = some pr.2) ∧
        bookW.calc_cost 50 = some (walkSpec 50 lvls)) :=
  ⟨⟨bookW_reach, by decide⟩,
    c5_cost_walks_levels_in_priority_order bookW 50 bookW_reach (by decide)⟩

/-- C6, counterexample.  The claim says `calc_cost` is non-decreasing in
the target for every fixed book.  It is not across the sufficiency
boundary: on a one-level ask book (price 10, size 5), target 5 costs 50
but target 6 falls back to the insufficient-liquidity result 0. -/
theorem c6_counterexample :
    (5 : Int) ≤ 6 ∧ bookC6.calc_cost 5 = some 50 ∧ bookC6.calc_cost 6 = some 0 ∧
      ¬((50 : Int) ≤ 0) := by
  refine ⟨by decide, by decide, by decide, by decide⟩

/-- C6, amended: for a fixed well-formed book (duplicate-free level keys,
positive level sizes, non-negative prices, `total_size` equal to the level
sum), `calc_cost` is non-decreasing on targets within the available
liquidity (`0 ≤ t ≤ t' ≤ total_size`); beyond `total_size` it returns the
0 sentinel, which breaks global monotonicity; and `calc_cost book 0 = 0`
always. -/
theorem c6_monotone_within_liquidity (b : OrderBook)
    (hnd : NodupKeys b.price_map)
    (htot : b.total_size = asum b.price_map)
    (hpos : ∀ p v, alookup p b.price_map = some v → 0 < v)
    (hpr : ∀ p ∈ keysOf b.price_map, (0 : Int) ≤ p)
    (t t' : Int) (h0 : 0 ≤ t) (htt : t ≤ t') (ht' : t' ≤ b.total_size) :
    (∃ c c', b.calc_cost t = some c ∧ b.calc_cost t' = some c' ∧ c ≤ c') ∧
      b.calc_cost 0 = some 0 := by
  constructor
  · have hw1 := calc_cost_eq_walkSpec b t hnd htot (le_trans htt ht')
    have hw2 := calc_cost_eq_walkSpec b t' hnd htot ht'
    refine ⟨_, _, hw1, hw2, ?_⟩
    apply walkSpec_mono _ t t' h0 htt
    intro e he
    rcases List.mem_map.1 he with ⟨p, hp, rfl⟩
    have hpk : p ∈ keysOf b.price_map := (sortedPrices_perm b).mem_iff.1 hp
    refine ⟨hpr p hpk, ?_⟩
    cases hlo : alookup p b.price_map with
    | none => simp [hlo]
    | some v =>
      have := hpos p v hlo
      simp only [hlo, Option.getD_some]
      linarith
  · unfold OrderBook.calc_cost
    by_cases h : b.total_size ≥ 0
    · rw [if_pos h]
      cases hsp : sortedPrices b with
      | nil => simp [costLoop]
      | cons p rest => simp [costLoop]
    · rw [if_neg h]

/-- C6, witness for the amended theorem at a concrete book with targets
10 and 60. -/
theorem c6_witness :
    ((0 : Int) ≤ 10 ∧ (10 : Int) ≤ 60 ∧ (60 : Int) ≤ bookW.total_size) ∧
      ((∃ c c', bookW.calc_cost 10 = some c ∧ bookW.calc_cost 60 = some c' ∧ c ≤ c') ∧
        bookW.calc_cost 0 = some 0) :=
  ⟨⟨by decide, by decide, by decide⟩,
    c6_monotone_within_liquidity bookW bookW_nodup bookW_total bookW_level_pos
      bookW_keys_nonneg 10 60 (by decide) (by decide) (by decide)⟩

/-- C7, counterexample.  On the four-line scenario with target 200 the
program prints exactly two lines: the first insufficient-liquidity `NA`
is suppressed (the cached buy amount starts at 0, equal to the new
amount), and the line after the third event reports the total cost
8851.00 dollars, not the claimed `44.26`. -/
theorem c7_counterexample :
    runPipeline 200 c7Lines = some c7Actual ∧ c7Actual ≠ c7Claimed := by
  refine ⟨by decide, by decide⟩

/-- C7, amended: the pipeline with target 200 on the four-line input
prints exactly `28800592 B 8851.00` followed by `28800642 B NA`. -/
theorem c7_pipeline_output : runPipeline 200 c7Lines = some c7Actual := by decide

/-- C8: the loop catches the `ValueError` raised while parsing the
malformed price token `xx.xx` of the second line, but — lacking a
`continue` — still processes the stale, partially-updated `Order` object
(price and side left over from the first line), adding a phantom order
`d`: the sell book's total jumps from 100 to 200 and a bogus quote is
printed, so a malformed line can mutate book state. -/
theorem c8_malformed_line_mutates_book :
    (runLines 200 initState [c8Line1]).map (fun st => st.sell_ob.total_size) = some 100 ∧
      (runLines 200 initState [c8Line1]).map
        (fun st => (Order.parse_message st.ord c8Line2).2) = some ParseOutcome.valueError ∧
      (runLines 200 initState [c8Line1, c8Line2]).map
        (fun st => st.sell_ob.total_size) = some 200 ∧
      runPipeline 200 [c8Line1, c8Line2] = some ["28800600 B 8852.00"] := by
  refine ⟨by decide, by decide, by decide, by decide⟩

/-- C9: an Add whose side does not match the book, and a Reduce whose id
is not open on the book, leave the whole book state unchanged. -/
theorem c9_wrong_side_add_and_unknown_reduce_are_noops (b : OrderBook) (o : Order)
    (h : (o.type = "A" ∧ o.side ≠ b.side) ∨
      (o.type = "R" ∧ alookup o.id b.order_map = none)) :
    b.process_order o = some b := by
  rcases h with ⟨hA, hs⟩ | ⟨hR, hid⟩
  · unfold OrderBook.process_order
    rw [if_pos hA]
    unfold OrderBook.add_order
    rw [if_neg hs]
  · have hA : ¬(o.type = "A") := by
      rw [hR]
      decide
    unfold OrderBook.process_order
    rw [if_neg hA, if_pos hR]
    simp only [OrderBook.reduce_order, hid]

/-- C9, witness: a Reduce for an id that is not open on the book. -/
theorem c9_witness :
    ((⟨5, "R", "zz", 3, 0, ""⟩ : Order).type = "R" ∧
      alookup (⟨5, "R", "zz", 3, 0, ""⟩ : Order).id bookW.order_map = none) ∧
      bookW.process_order ⟨5, "R", "zz", 3, 0, ""⟩ = some bookW :=
  ⟨⟨rfl, by decide⟩,
    c9_wrong_side_add_and_unknown_reduce_are_noops bookW _ (Or.inr ⟨rfl, by decide⟩)⟩

/-- C10: on a book satisfying the positivity invariant whose total tracks
the level sum, the `calc_cost` loop with `0 < target ≤ total_size`
terminates without ever indexing the sorted price list out of bounds
(it returns a value instead of the `none` that models the `IndexError`). -/
theorem c10_cost_loop_in_bounds (b : OrderBook) (t : Int)
    (hnd : NodupKeys b.price_map)
    (hpos : ∀ p v, alookup p b.price_map = some v → 0 < v)
    (htot : b.total_size = asum b.price_map)
    (h0 : 0 < t) (ht : t ≤ b.total_size) :
    (b.calc_cost t).isSome := by
  rw [calc_cost_eq_walkSpec b t hnd htot ht]
  rfl

/-- C10, witness at a concrete one-level book with target 1. -/
theorem c10_witness :
    ((0 : Int) < 1 ∧ (1 : Int) ≤ bookW.total_size) ∧ (bookW.calc_cost 1).isSome :=
  ⟨⟨by decide, by decide⟩,
    c10_cost_loop_in_bounds bookW 1 bookW_nodup bookW_level_pos bookW_total
      (by decide) (by decide)⟩

end Pricer
